import Mathlib

/-!
Verification of the chess-coverage-search program: a shallow embedding of the
board model (`src/chess/board.go`, the piece/coverage file) and of the
orchestration bookkeeping (`main` file), with theorems settling the frozen
claims about sliding coverage, the reduce pass, compact-state identity,
the outstanding-work counter, frontier pruning, dispatch order, scoring,
and the compaction round trip.
-/

namespace Chess

/-- Go `BOARD_SIZE` (src/chess/board.go): size of the board to attempt to solve. -/
def BOARD_SIZE : Nat := 8

/-- Go `type Piece byte`.  The named constants below are 0..5; other byte values
are representable (and unrecognized), as in Go. -/
abbrev Piece := Nat

def NONE : Piece := 0
def PAWN : Piece := 1
def KNIGHT : Piece := 2
def BISHOP : Piece := 3
def ROOK : Piece := 4
def QUEEN : Piece := 5

/-- Outcome of a fallible Go computation: a normal value, an error returned via
the `error` result, or a `panic` (which crashes the goroutine instead of
returning through the error channel). -/
inductive GoResult (α : Type) where
  | ok : α → GoResult α
  | goError : String → GoResult α
  | goPanic : String → GoResult α
deriving DecidableEq

/-- Go `scores` map: values per piece; absent keys give `none`. -/
def scores (piece : Piece) : Option Int :=
  if piece = PAWN then some 1
  else if piece = KNIGHT then some 3
  else if piece = BISHOP then some 3
  else if piece = ROOK then some 5
  else if piece = QUEEN then some 9
  else none

/-- Go `GetScore`: looks the piece up in `scores`; when the key is missing it
panics with "tried to get score for unknown piece: %d".  Its declared error
return is never used. -/
def GetScore (piece : Piece) : GoResult Int :=
  match scores piece with
  | some s => GoResult.ok s
  | none => GoResult.goPanic ("tried to get score for unknown piece: " ++ toString piece)

/-- Go `point` (an `int8`, row-major `x*BOARD_SIZE + y`).  Every arithmetic step
the program performs on points stays far inside the int8 range, so `Int` is a
faithful model. -/
abbrev point := Int

/-- Go `point.x`: `int8(p) / 8`; Go integer division truncates toward zero,
which is `Int.tdiv`. -/
def pointX (p : Int) : Int := p.tdiv 8

/-- Go `point.y`: `int8(p) % 8` (Go remainder, truncation convention). -/
def pointY (p : Int) : Int := p.tmod 8

/-- Go `newPointUnsafe`. -/
def newPointUnsafe (x y : Int) : point := x * 8 + y

/-- Go `point.add`: the offset point `p + (dx*8 + dy)` together with the bit
`!(newX < 0 || newX >= 8 || newY < 0 || newY >= 8)`, written as the equivalent
conjunction. -/
def pointAdd (p : Int) (dx dy : Int) : Int × Bool :=
  (p + (dx * 8 + dy),
   decide (0 ≤ pointX p + dx ∧ pointX p + dx < 8 ∧ 0 ≤ pointY p + dy ∧ pointY p + dy < 8))

/-- The occupancy of a Go `Board` (`[BOARD_SIZE][BOARD_SIZE]*cell`, indexed
`[x][y]`).  A settled board's `supports`/`supportedBy` maps are recomputed from
scratch out of the occupancy by `settleSupportGraph`, so they are modelled by
the derived functions `supportsOf`/`supportedByOf` below. -/
abbrev Board := Fin 8 → Fin 8 → Piece

def toIdx (n : Int) : Fin 8 := ⟨n.toNat % 8, Nat.mod_lt _ (by norm_num)⟩

/-- Go `Board.getCell(p).piece`.  The program only reads cells at valid points;
for other ints this total model clamps the index. -/
def getCellPiece (b : Board) (p : Int) : Piece :=
  b (toIdx (pointX p)) (toIdx (pointY p))

/-- Go `Board.isEmpty`. -/
def isEmpty (b : Board) (p : Int) : Bool := decide (getCellPiece b p = NONE)

/-- `result.put(possiblePoint)` guarded by the validity bit, as in the pawn and
knight coverage functions. -/
def putIfValid (s : Finset Int) (pv : Int × Bool) : Finset Int :=
  if pv.2 then insert pv.1 s else s

/-- Go `pawnCoverage`: offsets (1,1) and (1,-1), board-edge clipped. -/
def pawnCoverage (p : Int) : Finset Int :=
  putIfValid (putIfValid ∅ (pointAdd p 1 1)) (pointAdd p 1 (-1))

/-- Go `knightCoverage`: the eight knight offsets in source order, each added
when valid. -/
def knightCoverage (p : Int) : Finset Int :=
  [(1, 2), (2, 1), (-1, 2), (-2, 1), (1, -2), (2, -1), (-1, -2), (-2, -1)].foldl
    (fun s d => putIfValid s (pointAdd p d.1 d.2)) ∅

/-- One ray of a sliding piece.  Go walks `next` by the offset while the point
is valid and empty, adding each visited cell, and after the loop adds the final
point when it is still valid (the first occupied cell).  The Go loop is
unbounded; `BOARD_SIZE` steps of fuel always suffice because every step moves a
coordinate by one inside `[0, 8)` (proved in the ray lemmas below, which show
the fuel is never exhausted). -/
def slideRay (b : Board) (dx dy : Int) : Nat → Int × Bool → Finset Int
  | 0, _ => ∅
  | fuel + 1, nv =>
    if nv.2 then
      if isEmpty b nv.1 then insert nv.1 (slideRay b dx dy fuel (pointAdd nv.1 dx dy))
      else {nv.1}
    else ∅

/-- Go `bishopCoverage`: the four diagonal rays, one shared result set. -/
def bishopCoverage (b : Board) (p : Int) : Finset Int :=
  slideRay b 1 1 BOARD_SIZE (pointAdd p 1 1) ∪
  slideRay b (-1) 1 BOARD_SIZE (pointAdd p (-1) 1) ∪
  slideRay b 1 (-1) BOARD_SIZE (pointAdd p 1 (-1)) ∪
  slideRay b (-1) (-1) BOARD_SIZE (pointAdd p (-1) (-1))

/-- Go `rookCoverage`: the four orthogonal rays, one shared result set. -/
def rookCoverage (b : Board) (p : Int) : Finset Int :=
  slideRay b 1 0 BOARD_SIZE (pointAdd p 1 0) ∪
  slideRay b 0 1 BOARD_SIZE (pointAdd p 0 1) ∪
  slideRay b (-1) 0 BOARD_SIZE (pointAdd p (-1) 0) ∪
  slideRay b 0 (-1) BOARD_SIZE (pointAdd p 0 (-1))

/-- Go `queenCoverage`: starts from the bishop set and puts every rook point
into it, i.e. the union of the two. -/
def queenCoverage (b : Board) (p : Int) : Finset Int :=
  bishopCoverage b p ∪ rookCoverage b p

/-- Go `getCoverage`: dispatch on the piece in source order; unknown pieces
yield the error "attempted to get coverage for unknown piece: %d". -/
def getCoverage (b : Board) (p : Int) (piece : Piece) : GoResult (Finset Int) :=
  if piece = PAWN then GoResult.ok (pawnCoverage p)
  else if piece = KNIGHT then GoResult.ok (knightCoverage p)
  else if piece = BISHOP then GoResult.ok (bishopCoverage b p)
  else if piece = ROOK then GoResult.ok (rookCoverage b p)
  else if piece = QUEEN then GoResult.ok (queenCoverage b p)
  else GoResult.goError ("attempted to get coverage for unknown piece: " ++ toString piece)

/-- Total accessor for coverage: on the closed piece set it is exactly
`getCoverage`; outside it (where the Go program aborts with an error) it
returns `∅`.  Theorems about settled-board operations carry a `ValidBoard`
hypothesis, under which the two agree. -/
def coverageD (b : Board) (p : Int) (piece : Piece) : Finset Int :=
  match getCoverage b p piece with
  | GoResult.ok s => s
  | _ => ∅

/-- A board whose occupied cells all hold pieces of the closed set (pieces the
Go program can settle and score without aborting). -/
def ValidBoard (b : Board) : Prop := ∀ x y : Fin 8, b x y ≤ 5

instance (b : Board) : Decidable (ValidBoard b) := by
  unfold ValidBoard; infer_instance

/-- The encoded point of cell (x, y). -/
def enc (x y : Fin 8) : point := newPointUnsafe x.val y.val

/-- The 64 board cells in Go's iteration order (x outer, y inner). -/
def cellOrder : List Int :=
  (List.finRange 8).flatMap (fun x => (List.finRange 8).map (fun y => enc x y))

/-- The set of the 64 valid points. -/
def allPoints : Finset Int := cellOrder.toFinset

/-- The `supports` set `settleSupportGraph` leaves on the cell at `p`: its
piece's coverage when occupied, empty otherwise. -/
def supportsOf (b : Board) (p : Int) : Finset Int :=
  if getCellPiece b p = NONE then ∅ else coverageD b p (getCellPiece b p)

/-- The `supportedBy` set `settleSupportGraph` leaves on the cell at `q`: all
occupied cells whose coverage contains `q`. -/
def supportedByOf (b : Board) (q : Int) : Finset Int :=
  allPoints.filter
    (fun p => getCellPiece b p ≠ NONE ∧ q ∈ coverageD b p (getCellPiece b p))

/-- Go `GetCoverageLevel`: how many cells have a non-empty `supportedBy`. -/
def GetCoverageLevel (b : Board) : Nat :=
  (allPoints.filter (fun q => 0 < (supportedByOf b q).card)).card

/-- Helper for `Score`: fold Go's cell loop, adding `GetScore` of every occupied
cell; a panic in `GetScore` aborts the whole computation. -/
def scoreAux (b : Board) : List Int → Int → GoResult Int
  | [], acc => GoResult.ok acc
  | p :: rest, acc =>
    if getCellPiece b p = NONE then scoreAux b rest acc
    else
      match GetScore (getCellPiece b p) with
      | GoResult.ok s => scoreAux b rest (acc + s)
      | GoResult.goError msg => GoResult.goError msg
      | GoResult.goPanic msg => GoResult.goPanic msg

/-- Go `Board.Score`: the piece-based score of the board, summed over the cells
in iteration order. -/
def Score (b : Board) : GoResult Int := scoreAux b cellOrder 0

/-- The reduce pass's removability test (the `cellLoop` body in `reduce`): an
occupied cell is skipped iff some cell it supports has `supportedBy` of size
exactly one; it is removable otherwise. -/
def removable (b : Board) (p : Int) : Prop :=
  getCellPiece b p ≠ NONE ∧ ∀ q ∈ supportsOf b p, (supportedByOf b q).card ≠ 1

instance (b : Board) (p : Int) : Decidable (removable b p) := by
  unfold removable; infer_instance

/-- Removing the piece at `p` (`newBoard.getCell(p).piece = NONE` on the copy). -/
def removeAt (b : Board) (p : Int) : Board :=
  fun x y => if toIdx (pointX p) = x ∧ toIdx (pointY p) = y then NONE else b x y

/-- Go `Board.reduce` with explicit recursion fuel: for every removable cell in
iteration order, remove it, resettle (derived here) and recurse, concatenating
the branches; a board with no removable piece returns itself.  Go's recursion
depth is bounded by the piece count (at most `BOARD_SIZE*BOARD_SIZE`), so fuel
65 can never run out; `reduceF_fuel` below makes that precise. -/
def reduceF : Nat → Board → List Board
  | 0, _ => []
  | fuel + 1, b =>
    let branches :=
      (cellOrder.filter (fun p => removable b p)).flatMap (fun p => reduceF fuel (removeAt b p))
    if branches.isEmpty then [b] else branches

/-- Go `Board.reduce`. -/
def reduce (b : Board) : List Board := reduceF 65 b

/-- Number of occupied cells of a board. -/
def pieceCount (b : Board) : Nat :=
  ((Finset.univ : Finset (Fin 8 × Fin 8)).filter (fun c => b c.1 c.2 ≠ NONE)).card

/-- Go `MinimalBoard`: the row-major occupancy array plus the four derived
scalars.  `Heuristic` is a `float32` in Go; exact rationals stand in for the
float values the program computes. -/
structure MinimalBoard where
  board : Fin 64 → Piece
  Heuristic : ℚ
  IsSolved : Bool
  Score : Int
  Coverage : Int

/-- Go map keys compare with `==` on the whole struct: every field takes part. -/
instance : DecidableEq MinimalBoard := fun a c =>
  decidable_of_iff
    (a.board = c.board ∧ a.Heuristic = c.Heuristic ∧ a.IsSolved = c.IsSolved ∧
      a.Score = c.Score ∧ a.Coverage = c.Coverage)
    (by cases a; cases c; simp)

/-- Total version of `Score` used by compaction; on the closed piece set (every
board the program actually compacts) it agrees with `Score`'s ok value. -/
def scoreD (b : Board) : Int :=
  match Score b with
  | GoResult.ok s => s
  | _ => 0

/-- Go `getMinimalBoard`: computes heuristic, solved flag, score and coverage
and copies the occupancy into the row-major array
(`result.board[(x*8)+y] = piece`). -/
def getMinimalBoard (b : Board) (heuristicFn : Board → ℚ) : MinimalBoard where
  board := fun i => b ⟨i.val / 8, by have h := i.isLt; omega⟩ ⟨i.val % 8, by have h := i.isLt; omega⟩
  Heuristic := heuristicFn b
  IsSolved := decide (GetCoverageLevel b = BOARD_SIZE * BOARD_SIZE)
  Score := scoreD b
  Coverage := GetCoverageLevel b

/-- Go `MinimalBoard.RebuildBoard`: re-inflates the board
(`board[i/8][i%8] = m.board[i]`) and resettles the support graph — the support
graph is derived from occupancy in this model, so rebuilding is occupancy
reconstruction. -/
def RebuildBoard (m : MinimalBoard) : Board :=
  fun x y => m.board ⟨x.val * 8 + y.val, by have h1 := x.isLt; have h2 := y.isLt; omega⟩

/-- Go `MinimalBoardSet`: a map keyed by the whole `MinimalBoard` value; a list
searched with full-struct equality models the key set. -/
abbrev MinimalBoardSet := List MinimalBoard

/-- Go `MinimalBoardSet.Contains`: map-key lookup. -/
def MinimalBoardSet.Contains (s : MinimalBoardSet) (m : MinimalBoard) : Bool :=
  s.any (fun x => decide (x = m))

/-- Go `MinimalBoardSet.Put`: map-key insert (idempotent on present keys). -/
def MinimalBoardSet.Put (s : MinimalBoardSet) (m : MinimalBoard) : MinimalBoardSet :=
  if MinimalBoardSet.Contains s m then s else m :: s

/-- The orchestrator-owned state that `insertBoard` (main file) touches. -/
structure OrchestratorState where
  seenBoards : MinimalBoardSet
  edgeSet : List MinimalBoard
  duplicates : Int

/-- Go `insertBoard`: appends to the edge set unless the dedup set has already
seen the board, bumping the duplicate counter otherwise; returns whether the
board was inserted. -/
def insertBoard (st : OrchestratorState) (m : MinimalBoard) : OrchestratorState × Bool :=
  if MinimalBoardSet.Contains st.seenBoards m = false then
    (⟨MinimalBoardSet.Put st.seenBoards m, st.edgeSet ++ [m], st.duplicates⟩, true)
  else
    (⟨st.seenBoards, st.edgeSet, st.duplicates + 1⟩, false)

/-- The search heuristic (main file): `coverage/score + coverage`; float32 in
Go, exact rationals here. -/
def heuristic (b : Board) : ℚ :=
  ((GetCoverageLevel b : ℚ) / (scoreD b : ℚ)) + (GetCoverageLevel b : ℚ)

/-- The orchestrator's prune loop (main file): starting from
`tailIndex = len(edgeSet)-1`, while `edgeSet[tailIndex].Score > bound` it drops
the tail element and decrements `tailIndex` — so `tailIndex` stays
`len(edgeSet)-1` throughout, and the loop reads `edgeSet[len(edgeSet)-1]` each
iteration.  `none` models the Go index-out-of-range panic that happens when the
list has become empty and the loop condition reads `edgeSet[-1]`. -/
def pruneLoop (edge : List MinimalBoard) (bound : Int) : Option (List MinimalBoard) :=
  match h : edge.getLast? with
  | none => none
  | some mb =>
    if mb.Score > bound then pruneLoop edge.dropLast bound else some edge
termination_by edge.length
decreasing_by
  have hne : edge ≠ [] := by
    intro he
    rw [he] at h
    simp at h
  simp only [List.length_dropLast]
  have := List.length_pos.mpr hne
  omega

/-- The orchestrator's prune step: the loop runs only inside
`if len(edgeSet) > 0`. -/
def pruneStep (edge : List MinimalBoard) (bound : Int) : Option (List MinimalBoard) :=
  if edge.isEmpty then some edge else pruneLoop edge bound

/-- The orchestrator's re-sort of the frontier with offset 0 (the whole edge
set; offset 0 is forced whenever the bound changed), ascending by heuristic:
`sort.Slice(edgeSet, less = Heuristic i < Heuristic j)`. -/
def sortEdgeSet (edge : List MinimalBoard) : List MinimalBoard :=
  edge.mergeSort (fun a c => decide (a.Heuristic ≤ c.Heuristic))

/-- The board the orchestrator dispatches to the work queue: the tail element
`edgeSet[len(edgeSet)-1]` of the sorted edge set. -/
def dispatchedBoard (edge : List MinimalBoard) : Option MinimalBoard :=
  (sortEdgeSet edge).getLast?

/-- The events that touch the `outstandingJobs` counter in the main file. -/
inductive SearchEvent where
  | dispatch : SearchEvent
  | workerDone : Bool → SearchEvent
deriving DecidableEq

/-- The net effect of one event on `outstandingJobs`: a dispatch does `Add(1)`
after handing a board to the work queue; a worker job always runs the deferred
`Add(-1)` registered at the top of its closure, and on the path that reaches
`return nil` it additionally runs the explicit `Add(-1)` written just before
the return (`workerDone true`); a job that returns early on an error runs only
the deferred decrement (`workerDone false`). -/
def outstandingDelta : SearchEvent → Int
  | SearchEvent.dispatch => 1
  | SearchEvent.workerDone ok => (if ok then -1 else 0) + -1

/-- The value of `outstandingJobs` after a sequence of events, starting at 0. -/
def outstandingAfter (evs : List SearchEvent) : Int :=
  evs.foldl (fun c e => c + outstandingDelta e) 0

/-- The point denotes an on-board cell: both decoded coordinates lie in [0, 8). -/
def pointOnBoard (p : Int) : Prop :=
  0 ≤ pointX p ∧ pointX p < 8 ∧ 0 ≤ pointY p ∧ pointY p < 8

instance (p : Int) : Decidable (pointOnBoard p) := by
  unfold pointOnBoard; infer_instance

/-- The k-th point along a ray: the origin plus k offset steps (exactly the
arithmetic `point.add` performs per step). -/
def rayPoint (p dx dy : Int) (k : Nat) : Int := p + k * (dx * 8 + dy)

/-- The k-th step along the ray is on the board: the origin's decoded
coordinates, offset k times, lie in [0, 8). -/
def rayInBounds (p dx dy : Int) (k : Nat) : Prop :=
  0 ≤ pointX p + k * dx ∧ pointX p + k * dx < 8 ∧
  0 ≤ pointY p + k * dy ∧ pointY p + k * dy < 8

/-- Modelled from the spec: a cell is reached by walking one ray iff it is the
k-th cell along the ray for some k ≥ 1 such that every step up to k stays on
the board and every strictly earlier ray cell is empty.  Every empty traversed
cell qualifies, the first occupied cell qualifies and nothing past it does, and
a walk that leaves the board adds no out-of-bounds cell. -/
def specRayMem (b : Board) (p dx dy : Int) (q : Int) : Prop :=
  ∃ k : Nat, 1 ≤ k ∧ q = rayPoint p dx dy k ∧
    (∀ j : Nat, 1 ≤ j → j ≤ k → rayInBounds p dx dy j) ∧
    (∀ j : Nat, 1 ≤ j → j < k → isEmpty b (rayPoint p dx dy j) = true)

instance (p dx dy : Int) (k : Nat) : Decidable (rayInBounds p dx dy k) := by
  unfold rayInBounds; infer_instance

/-- The empty board. -/
def emptyBoard : Board := fun _ _ => NONE

/-- A compact state with all scalars zero over the empty occupancy. -/
def mbZero : MinimalBoard := ⟨fun _ => NONE, 0, false, 0, 0⟩

/-- Same occupancy as `mbZero` but with `Score` 5. -/
def mbScoreFive : MinimalBoard := ⟨fun _ => NONE, 0, false, 5, 0⟩

/-- A compact state whose score 29 exceeds the initial bound 28. -/
def mbOver : MinimalBoard := ⟨fun _ => NONE, 0, false, 29, 0⟩

/-- A compact state with heuristic 1. -/
def mbLow : MinimalBoard := ⟨fun _ => NONE, 1, false, 0, 0⟩

/-- A compact state with heuristic 2. -/
def mbHigh : MinimalBoard := ⟨fun _ => NONE, 2, false, 0, 0⟩

/-- A board holding the unrecognized piece value 6 at the origin. -/
def badPieceBoard : Board := fun x y => if x.val = 0 ∧ y.val = 0 then 6 else NONE

/-- The claim's per-piece values: pawn 1, knight 3, bishop 3, rook 5, queen 9. -/
def pieceValue (piece : Piece) : Int :=
  if piece = PAWN then 1
  else if piece = KNIGHT then 3
  else if piece = BISHOP then 3
  else if piece = ROOK then 5
  else if piece = QUEEN then 9
  else 0

/-- A board with a single pawn at the origin. -/
def pawnAtOrigin : Board := fun x y => if x.val = 0 ∧ y.val = 0 then PAWN else NONE

/-- A rook at (0,0) and pawns at (0,1) and (0,3). -/
def demoRookPawns : Board := fun x y =>
  if x.val = 0 ∧ y.val = 0 then ROOK
  else if x.val = 0 ∧ (y.val = 1 ∨ y.val = 3) then PAWN
  else NONE

/-- The same board with the pawn at (0,1) removed. -/
def demoRookPawn : Board := fun x y =>
  if x.val = 0 ∧ y.val = 0 then ROOK
  else if x.val = 0 ∧ y.val = 3 then PAWN
  else NONE

/-- Pawns at (0,0), (0,2) and (0,4). -/
def demoTriplePawns : Board := fun x y =>
  if x.val = 0 ∧ (y.val = 0 ∨ y.val = 2 ∨ y.val = 4) then PAWN else NONE

/-- The pawns at (0,2) and (0,4) only. -/
def demoPawnsBC : Board := fun x y =>
  if x.val = 0 ∧ (y.val = 2 ∨ y.val = 4) then PAWN else NONE

/-- The pawns at (0,0) and (0,4) only. -/
def demoPawnsAC : Board := fun x y =>
  if x.val = 0 ∧ (y.val = 0 ∨ y.val = 4) then PAWN else NONE

theorem pointX_encode {x y : Int} (hx0 : 0 ≤ x) (hx8 : x < 8) (hy0 : 0 ≤ y) (hy8 : y < 8) :
    pointX (x * 8 + y) = x := by
  unfold pointX
  rw [Int.tdiv_eq_ediv (by omega) (by omega)]
  omega

theorem pointY_encode {x y : Int} (hx0 : 0 ≤ x) (hx8 : x < 8) (hy0 : 0 ≤ y) (hy8 : y < 8) :
    pointY (x * 8 + y) = y := by
  unfold pointY
  rw [Int.tmod_eq_emod (by omega) (by omega)]
  omega

/-- Any point is recovered from its decoded coordinates. -/
theorem point_eq_coords (p : Int) : 8 * pointX p + pointY p = p :=
  Int.tdiv_add_tmod p 8

theorem toIdx_natCast (n : Nat) (h : n < 8) : toIdx (n : Int) = ⟨n, h⟩ := by
  unfold toIdx
  apply Fin.ext
  simp [Nat.mod_eq_of_lt h]

theorem pointX_enc (x y : Fin 8) : pointX (enc x y) = (x.val : Int) := by
  unfold enc newPointUnsafe
  exact pointX_encode (by positivity) (by exact_mod_cast x.isLt) (by positivity)
    (by exact_mod_cast y.isLt)

theorem pointY_enc (x y : Fin 8) : pointY (enc x y) = (y.val : Int) := by
  unfold enc newPointUnsafe
  exact pointY_encode (by positivity) (by exact_mod_cast x.isLt) (by positivity)
    (by exact_mod_cast y.isLt)

theorem getCellPiece_enc (b : Board) (x y : Fin 8) : getCellPiece b (enc x y) = b x y := by
  unfold getCellPiece
  rw [pointX_enc, pointY_enc, toIdx_natCast x.val x.isLt, toIdx_natCast y.val y.isLt]

theorem mem_cellOrder {p : Int} : p ∈ cellOrder ↔ ∃ x y : Fin 8, p = enc x y := by
  unfold cellOrder
  constructor
  · intro hp
    obtain ⟨x, _, hp2⟩ := List.mem_flatMap.mp hp
    obtain ⟨y, _, henc⟩ := List.mem_map.mp hp2
    exact ⟨x, y, henc.symm⟩
  · rintro ⟨x, y, rfl⟩
    exact List.mem_flatMap.mpr
      ⟨x, List.mem_finRange x, List.mem_map.mpr ⟨y, List.mem_finRange y, rfl⟩⟩

theorem mem_allPoints {p : Int} : p ∈ allPoints ↔ ∃ x y : Fin 8, p = enc x y := by
  unfold allPoints
  rw [List.mem_toFinset]
  exact mem_cellOrder

theorem pointOnBoard_iff {p : Int} : pointOnBoard p ↔ ∃ x y : Fin 8, p = enc x y := by
  constructor
  · rintro ⟨h1, h2, h3, h4⟩
    refine ⟨⟨(pointX p).toNat, by omega⟩, ⟨(pointY p).toNat, by omega⟩, ?_⟩
    have hp := point_eq_coords p
    show p = ((pointX p).toNat : Int) * 8 + ((pointY p).toNat : Int)
    rw [Int.toNat_of_nonneg h1, Int.toNat_of_nonneg h3]
    omega
  · rintro ⟨x, y, rfl⟩
    unfold pointOnBoard
    rw [pointX_enc, pointY_enc]
    have hx := x.isLt
    have hy := y.isLt
    omega

theorem pointOnBoard_enc (x y : Fin 8) : pointOnBoard (enc x y) :=
  pointOnBoard_iff.mpr ⟨x, y, rfl⟩

theorem removeAt_apply (b : Board) (x y x' y' : Fin 8) :
    removeAt b (enc x y) x' y' = if x = x' ∧ y = y' then NONE else b x' y' := by
  unfold removeAt
  rw [pointX_enc, pointY_enc, toIdx_natCast x.val x.isLt, toIdx_natCast y.val y.isLt]

theorem pieceCount_removeAt_lt (b : Board) (x y : Fin 8) (h : b x y ≠ NONE) :
    pieceCount (removeAt b (enc x y)) < pieceCount b := by
  unfold pieceCount
  apply Finset.card_lt_card
  rw [Finset.ssubset_iff_of_subset]
  · refine ⟨(x, y), ?_, ?_⟩
    · simp only [Finset.mem_filter, Finset.mem_univ, true_and]
      exact h
    · simp only [Finset.mem_filter, Finset.mem_univ, true_and, not_not]
      rw [removeAt_apply]
      simp
  · intro c hc
    simp only [Finset.mem_filter, Finset.mem_univ, true_and] at hc ⊢
    rw [removeAt_apply] at hc
    by_cases hxy : x = c.1 ∧ y = c.2
    · simp [hxy] at hc
    · simpa [hxy] using hc

theorem pieceCount_le (b : Board) : pieceCount b ≤ 64 := by
  unfold pieceCount
  calc ((Finset.univ : Finset (Fin 8 × Fin 8)).filter (fun c => b c.1 c.2 ≠ NONE)).card
      ≤ (Finset.univ : Finset (Fin 8 × Fin 8)).card := Finset.card_filter_le _ _
    _ = 64 := by simp

theorem listFlatMap_congr {α β : Type} (l : List α) (f g : α → List β)
    (h : ∀ a ∈ l, f a = g a) : l.flatMap f = l.flatMap g := by
  induction l with
  | nil => rfl
  | cons a l ih =>
    simp only [List.flatMap_cons]
    rw [h a (by simp), ih (fun a ha => h a (by simp [ha]))]

/-- A removable cell found by the scan is a genuinely occupied on-board cell. -/
theorem removable_shape {b : Board} {p : Int} (hmem : p ∈ cellOrder)
    (hrem : removable b p) : ∃ x y : Fin 8, p = enc x y ∧ b x y ≠ NONE := by
  obtain ⟨x, y, rfl⟩ := mem_cellOrder.mp hmem
  have h1 := hrem.1
  rw [getCellPiece_enc] at h1
  exact ⟨x, y, rfl, h1⟩

/-- One unfolding step of `reduceF`. -/
theorem reduceF_succ (fuel : Nat) (b : Board) :
    reduceF (fuel + 1) b =
      if ((cellOrder.filter (fun p => removable b p)).flatMap
          (fun p => reduceF fuel (removeAt b p))).isEmpty then [b]
      else (cellOrder.filter (fun p => removable b p)).flatMap
          (fun p => reduceF fuel (removeAt b p)) := by
  simp only [reduceF]

/-- The fuel of `reduceF` is irrelevant as soon as it exceeds the piece count:
Go's recursion terminates at that depth. -/
theorem reduceF_fuel : ∀ (n : Nat) (b : Board) (f1 f2 : Nat), pieceCount b ≤ n →
    pieceCount b < f1 → pieceCount b < f2 → reduceF f1 b = reduceF f2 b := by
  intro n
  induction n with
  | zero =>
    intro b f1 f2 hn h1 h2
    match f1, f2 with
    | a + 1, c + 1 =>
      rw [reduceF_succ, reduceF_succ]
      have hfilter : cellOrder.filter (fun p => removable b p) = [] := by
        rw [List.filter_eq_nil_iff]
        intro p hp hdec
        obtain ⟨x, y, _, hocc⟩ := removable_shape hp (of_decide_eq_true hdec)
        have : (x, y) ∈ (Finset.univ : Finset (Fin 8 × Fin 8)).filter
            (fun c => b c.1 c.2 ≠ NONE) := by
          simp only [Finset.mem_filter, Finset.mem_univ, true_and]
          exact hocc
        have hpos : 0 < pieceCount b := Finset.card_pos.mpr ⟨(x, y), this⟩
        omega
      rw [hfilter]
      simp
  | succ n ih =>
    intro b f1 f2 hn h1 h2
    match f1, f2 with
    | a + 1, c + 1 =>
      rw [reduceF_succ, reduceF_succ]
      have : (cellOrder.filter (fun p => removable b p)).flatMap
            (fun p => reduceF a (removeAt b p)) =
          (cellOrder.filter (fun p => removable b p)).flatMap
            (fun p => reduceF c (removeAt b p)) := by
        apply listFlatMap_congr
        intro p hp
        rw [List.mem_filter] at hp
        obtain ⟨x, y, rfl, hocc⟩ := removable_shape hp.1 (of_decide_eq_true hp.2)
        have hlt := pieceCount_removeAt_lt b x y hocc
        exact ih (removeAt b (enc x y)) a c (by omega) (by omega) (by omega)
      rw [this]

/-- The recursion `reduce` satisfies, with no fuel in sight. -/
theorem reduce_eq (b : Board) :
    reduce b =
      if ((cellOrder.filter (fun p => removable b p)).flatMap
          (fun p => reduce (removeAt b p))).isEmpty then [b]
      else (cellOrder.filter (fun p => removable b p)).flatMap
          (fun p => reduce (removeAt b p)) := by
  show reduceF 65 b = _
  rw [show (65 : Nat) = 64 + 1 from rfl, reduceF_succ]
  have : (cellOrder.filter (fun p => removable b p)).flatMap
        (fun p => reduceF 64 (removeAt b p)) =
      (cellOrder.filter (fun p => removable b p)).flatMap
        (fun p => reduce (removeAt b p)) := by
    apply listFlatMap_congr
    intro p hp
    rw [List.mem_filter] at hp
    obtain ⟨x, y, rfl, hocc⟩ := removable_shape hp.1 (of_decide_eq_true hp.2)
    have hlt := pieceCount_removeAt_lt b x y hocc
    have hle := pieceCount_le b
    exact reduceF_fuel 64 (removeAt b (enc x y)) 64 65 (by omega) (by omega) (by omega)
  rw [this]

/-- `reduce` never returns an empty list. -/
theorem reduce_ne_nil (b : Board) : reduce b ≠ [] := by
  rw [reduce_eq b]
  split
  · simp
  · rename_i h
    simpa using h

theorem rayPoint_zero (p dx dy : Int) : rayPoint p dx dy 0 = p := by
  unfold rayPoint
  simp

theorem rayInBounds_zero {p dx dy : Int} (h0 : pointOnBoard p) : rayInBounds p dx dy 0 := by
  simpa [rayInBounds] using h0

theorem rayPoint_coords {p dx dy : Int} {k : Nat} (hk : rayInBounds p dx dy k) :
    pointX (rayPoint p dx dy k) = pointX p + k * dx ∧
    pointY (rayPoint p dx dy k) = pointY p + k * dy := by
  obtain ⟨h1, h2, h3, h4⟩ := hk
  have hpe := point_eq_coords p
  have he : rayPoint p dx dy k = (pointX p + k * dx) * 8 + (pointY p + k * dy) := by
    unfold rayPoint
    linear_combination -hpe
  rw [he]
  exact ⟨pointX_encode h1 h2 h3 h4, pointY_encode h1 h2 h3 h4⟩

/-- A step in bounds yields an on-board point. -/
theorem rayPoint_onBoard {p dx dy : Int} {k : Nat} (hk : rayInBounds p dx dy k) :
    pointOnBoard (rayPoint p dx dy k) := by
  obtain ⟨hX, hE⟩ := rayPoint_coords hk
  obtain ⟨h1, h2, h3, h4⟩ := hk
  exact ⟨by rw [hX]; omega, by rw [hX]; omega, by rw [hE]; omega, by rw [hE]; omega⟩

theorem rayInBounds_succ_iff {p dx dy : Int} {s : Nat} :
    rayInBounds p dx dy (s + 1) ↔
      (0 ≤ (pointX p + s * dx) + dx ∧ (pointX p + s * dx) + dx < 8 ∧
       0 ≤ (pointY p + s * dy) + dy ∧ (pointY p + s * dy) + dy < 8) := by
  unfold rayInBounds
  have e1 : ((s + 1 : Nat) : Int) * dx = (s : Int) * dx + dx := by push_cast; ring
  have e2 : ((s + 1 : Nat) : Int) * dy = (s : Int) * dy + dy := by push_cast; ring
  rw [e1, e2]
  omega

/-- Stepping `point.add` from an on-board ray cell lands on the next ray cell,
the validity bit deciding whether that next cell is still on the board. -/
theorem pointAdd_rayPoint {p dx dy : Int} {s : Nat} (hs : rayInBounds p dx dy s) :
    pointAdd (rayPoint p dx dy s) dx dy =
      (rayPoint p dx dy (s + 1), decide (rayInBounds p dx dy (s + 1))) := by
  obtain ⟨hX, hE⟩ := rayPoint_coords hs
  unfold pointAdd
  refine Prod.ext ?_ ?_
  · show rayPoint p dx dy s + (dx * 8 + dy) = rayPoint p dx dy (s + 1)
    unfold rayPoint
    push_cast
    ring
  · show decide _ = decide _
    apply decide_eq_decide.mpr
    rw [hX, hE, rayInBounds_succ_iff]

/-- With a nonzero unit direction, a ray can stay in bounds for at most 7
steps: the fuel `BOARD_SIZE` can never run out mid-walk. -/
theorem rayInBounds_le {p dx dy : Int} (hdx : dx = 1 ∨ dx = -1 ∨ dx = 0)
    (hdy : dy = 1 ∨ dy = -1 ∨ dy = 0) (hne : ¬(dx = 0 ∧ dy = 0))
    (h0 : pointOnBoard p) {j : Nat} (hj : rayInBounds p dx dy j) : j ≤ 7 := by
  obtain ⟨a1, a2, a3, a4⟩ := h0
  obtain ⟨c1, c2, c3, c4⟩ := hj
  rcases hdx with rfl | rfl | rfl <;> rcases hdy with rfl | rfl | rfl <;> omega

theorem slideRay_succ_true_empty (b : Board) (dx dy : Int) (fuel : Nat) (n : Int)
    (he : isEmpty b n = true) :
    slideRay b dx dy (fuel + 1) (n, true) = insert n (slideRay b dx dy fuel (pointAdd n dx dy)) := by
  simp [slideRay, he]

theorem slideRay_succ_true_occ (b : Board) (dx dy : Int) (fuel : Nat) (n : Int)
    (he : isEmpty b n = false) :
    slideRay b dx dy (fuel + 1) (n, true) = {n} := by
  simp [slideRay, he]

theorem slideRay_succ_false (b : Board) (dx dy : Int) (fuel : Nat) (n : Int) :
    slideRay b dx dy (fuel + 1) (n, false) = ∅ := by
  simp [slideRay]

/-- The fueled walk of one ray computes exactly the spec's ray membership,
relative to any already-walked prefix of s in-bounds steps, as long as at least
`8 - s` fuel remains. -/
theorem slideRay_mem_iff (b : Board) {p dx dy : Int}
    (hdx : dx = 1 ∨ dx = -1 ∨ dx = 0) (hdy : dy = 1 ∨ dy = -1 ∨ dy = 0)
    (hne : ¬(dx = 0 ∧ dy = 0)) (h0 : pointOnBoard p) :
    ∀ (fuel s : Nat), rayInBounds p dx dy s → 8 ≤ fuel + s → ∀ q : Int,
      (q ∈ slideRay b dx dy fuel (pointAdd (rayPoint p dx dy s) dx dy) ↔
        ∃ k : Nat, s + 1 ≤ k ∧ q = rayPoint p dx dy k ∧
          (∀ j : Nat, s + 1 ≤ j → j ≤ k → rayInBounds p dx dy j) ∧
          (∀ j : Nat, s + 1 ≤ j → j < k → isEmpty b (rayPoint p dx dy j) = true)) := by
  intro fuel
  induction fuel with
  | zero =>
    intro s hs hfe q
    exact absurd (rayInBounds_le hdx hdy hne h0 hs) (by omega)
  | succ fuel ih =>
    intro s hs hfe q
    rw [pointAdd_rayPoint hs]
    by_cases hnext : rayInBounds p dx dy (s + 1)
    · rw [decide_eq_true hnext]
      by_cases hem : isEmpty b (rayPoint p dx dy (s + 1)) = true
      · rw [slideRay_succ_true_empty b dx dy fuel _ hem, Finset.mem_insert,
          ih (s + 1) hnext (by omega) q]
        constructor
        · rintro (rfl | ⟨k, hk1, hk2, hk3, hk4⟩)
          · refine ⟨s + 1, le_refl _, rfl, ?_, ?_⟩
            · intro j hj1 hj2
              have hj : j = s + 1 := by omega
              subst hj
              exact hnext
            · intro j hj1 hj2
              exact absurd hj2 (by omega)
          · refine ⟨k, by omega, hk2, ?_, ?_⟩
            · intro j hj1 hj2
              rcases Nat.eq_or_lt_of_le hj1 with hj | hj
              · rw [← hj]
                exact hnext
              · exact hk3 j (by omega) hj2
            · intro j hj1 hj2
              rcases Nat.eq_or_lt_of_le hj1 with hj | hj
              · rw [← hj]
                exact hem
              · exact hk4 j (by omega) hj2
        · rintro ⟨k, hk1, hk2, hk3, hk4⟩
          rcases Nat.eq_or_lt_of_le hk1 with hk | hk
          · left
            rw [hk2, ← hk]
          · right
            exact ⟨k, by omega, hk2, fun j hj1 hj2 => hk3 j (by omega) hj2,
              fun j hj1 hj2 => hk4 j (by omega) hj2⟩
      · have hf : isEmpty b (rayPoint p dx dy (s + 1)) = false := by
          simpa using hem
        rw [slideRay_succ_true_occ b dx dy fuel _ hf, Finset.mem_singleton]
        constructor
        · rintro rfl
          refine ⟨s + 1, le_refl _, rfl, ?_, fun j hj1 hj2 => absurd hj2 (by omega)⟩
          intro j hj1 hj2
          have hj : j = s + 1 := by omega
          subst hj
          exact hnext
        · rintro ⟨k, hk1, hk2, hk3, hk4⟩
          rcases Nat.eq_or_lt_of_le hk1 with hk | hk
          · rw [hk2, ← hk]
          · have := hk4 (s + 1) (le_refl _) hk
            rw [hf] at this
            exact absurd this (by simp)
    · rw [decide_eq_false hnext, slideRay_succ_false]
      simp only [Finset.not_mem_empty, false_iff]
      rintro ⟨k, hk1, hk2, hk3, hk4⟩
      exact hnext (hk3 (s + 1) (le_refl _) hk1)

/-- One ray of a sliding coverage, started the way the Go code starts it
(`p.add(d)`), computes exactly the spec's ray membership. -/
theorem slideRay_start_iff (b : Board) {p dx dy : Int}
    (hdx : dx = 1 ∨ dx = -1 ∨ dx = 0) (hdy : dy = 1 ∨ dy = -1 ∨ dy = 0)
    (hne : ¬(dx = 0 ∧ dy = 0)) (h0 : pointOnBoard p) (q : Int) :
    q ∈ slideRay b dx dy BOARD_SIZE (pointAdd p dx dy) ↔ specRayMem b p dx dy q := by
  have h := slideRay_mem_iff b hdx hdy hne h0 8 0 (rayInBounds_zero h0) (by omega) q
  rw [rayPoint_zero] at h
  unfold specRayMem
  unfold BOARD_SIZE
  simpa using h

/-- Bishop coverage is exactly the four diagonal ray walks. -/
theorem mem_bishopCoverage {b : Board} {p : Int} (h0 : pointOnBoard p) (q : Int) :
    q ∈ bishopCoverage b p ↔
      specRayMem b p 1 1 q ∨ specRayMem b p (-1) 1 q ∨ specRayMem b p 1 (-1) q ∨
        specRayMem b p (-1) (-1) q := by
  unfold bishopCoverage
  simp only [Finset.mem_union]
  rw [slideRay_start_iff b (by norm_num) (by norm_num) (by norm_num) h0 q,
    slideRay_start_iff b (by norm_num) (by norm_num) (by norm_num) h0 q,
    slideRay_start_iff b (by norm_num) (by norm_num) (by norm_num) h0 q,
    slideRay_start_iff b (by norm_num) (by norm_num) (by norm_num) h0 q]
  tauto

/-- Rook coverage is exactly the four orthogonal ray walks. -/
theorem mem_rookCoverage {b : Board} {p : Int} (h0 : pointOnBoard p) (q : Int) :
    q ∈ rookCoverage b p ↔
      specRayMem b p 1 0 q ∨ specRayMem b p 0 1 q ∨ specRayMem b p (-1) 0 q ∨
        specRayMem b p 0 (-1) q := by
  unfold rookCoverage
  simp only [Finset.mem_union]
  rw [slideRay_start_iff b (by norm_num) (by norm_num) (by norm_num) h0 q,
    slideRay_start_iff b (by norm_num) (by norm_num) (by norm_num) h0 q,
    slideRay_start_iff b (by norm_num) (by norm_num) (by norm_num) h0 q,
    slideRay_start_iff b (by norm_num) (by norm_num) (by norm_num) h0 q]
  tauto

/-- Every cell of a spec ray walk is on the board. -/
theorem specRayMem_onBoard {b : Board} {p dx dy q : Int}
    (h : specRayMem b p dx dy q) : pointOnBoard q := by
  obtain ⟨k, hk1, rfl, hk3, _⟩ := h
  exact rayPoint_onBoard (hk3 k hk1 (le_refl k))

/-- C1: for every board and on-board origin, bishop and rook coverage contain
exactly the cells reached by walking their four rays — every empty traversed
cell, plus the first occupied cell where the ray stops, and nothing past it;
every covered cell is on the board (a ray reaching the edge adds no
out-of-bounds cell); and queen coverage equals the union of bishop and rook
coverage at that position. -/
theorem c1_sliding_coverage_ray_walk (b : Board) (p : Int) (hp : pointOnBoard p) :
    (∀ q : Int, q ∈ bishopCoverage b p ↔
      specRayMem b p 1 1 q ∨ specRayMem b p (-1) 1 q ∨ specRayMem b p 1 (-1) q ∨
        specRayMem b p (-1) (-1) q) ∧
    (∀ q : Int, q ∈ rookCoverage b p ↔
      specRayMem b p 1 0 q ∨ specRayMem b p 0 1 q ∨ specRayMem b p (-1) 0 q ∨
        specRayMem b p 0 (-1) q) ∧
    (∀ q : Int, q ∈ queenCoverage b p → pointOnBoard q) ∧
    queenCoverage b p = bishopCoverage b p ∪ rookCoverage b p := by
  refine ⟨mem_bishopCoverage hp, mem_rookCoverage hp, ?_, rfl⟩
  intro q hq
  rcases Finset.mem_union.mp hq with hq | hq
  · rcases (mem_bishopCoverage hp q).mp hq with h | h | h | h <;> exact specRayMem_onBoard h
  · rcases (mem_rookCoverage hp q).mp hq with h | h | h | h <;> exact specRayMem_onBoard h

/-- Witness for C1 at the empty board and the corner point 0. -/
theorem c1_sliding_coverage_ray_walk_witness :
    pointOnBoard (0 : Int) ∧
    ((∀ q : Int, q ∈ bishopCoverage emptyBoard 0 ↔
      specRayMem emptyBoard 0 1 1 q ∨ specRayMem emptyBoard 0 (-1) 1 q ∨
        specRayMem emptyBoard 0 1 (-1) q ∨ specRayMem emptyBoard 0 (-1) (-1) q) ∧
    (∀ q : Int, q ∈ rookCoverage emptyBoard 0 ↔
      specRayMem emptyBoard 0 1 0 q ∨ specRayMem emptyBoard 0 0 1 q ∨
        specRayMem emptyBoard 0 (-1) 0 q ∨ specRayMem emptyBoard 0 0 (-1) q) ∧
    (∀ q : Int, q ∈ queenCoverage emptyBoard 0 → pointOnBoard q) ∧
    queenCoverage emptyBoard 0 = bishopCoverage emptyBoard 0 ∪ rookCoverage emptyBoard 0) :=
  ⟨by decide, c1_sliding_coverage_ray_walk emptyBoard 0 (by decide)⟩

/-- Rebuilding the compact form of a board recovers its occupancy cell for
cell: `result.board[(x*8)+y] = piece` inverted by `board[i/8][i%8]`. -/
theorem rebuild_getMinimalBoard (b : Board) (heuristicFn : Board → ℚ) :
    RebuildBoard (getMinimalBoard b heuristicFn) = b := by
  funext x y
  unfold RebuildBoard getMinimalBoard
  simp only [show (x.val * 8 + y.val) / 8 = x.val from by have := y.isLt; omega,
    show (x.val * 8 + y.val) % 8 = y.val from by have := y.isLt; omega]

/-- C9: the compaction round trip preserves occupancy, for every board and
heuristic function; the support graph is recomputed by the rebuild (it is
derived from occupancy in this model, as `settleSupportGraph` recomputes it
from scratch), not restored from the compact state, which does not carry it. -/
theorem c9_rebuild_compact_roundtrip (b : Board) (heuristicFn : Board → ℚ) :
    RebuildBoard (getMinimalBoard b heuristicFn) = b :=
  rebuild_getMinimalBoard b heuristicFn

/-- C4 counterexample: two compact states with equal occupancy arrays are not
equal under the dedup-set equality when a derived scalar differs, and the
second is not found in a set holding the first — the scalars do take part in
identity, refuting the claimed iff. -/
theorem c4_counterexample_scalars_in_identity :
    mbZero.board = mbScoreFive.board ∧ mbZero ≠ mbScoreFive ∧
      MinimalBoardSet.Contains (MinimalBoardSet.Put [] mbZero) mbScoreFive = false := by
  refine ⟨rfl, ?_, ?_⟩
  · intro h
    have hs := congrArg MinimalBoard.Score h
    simp [mbZero, mbScoreFive] at hs
  · decide

theorem contains_put_self (s : MinimalBoardSet) (m : MinimalBoard) :
    MinimalBoardSet.Contains (MinimalBoardSet.Put s m) m = true := by
  unfold MinimalBoardSet.Put
  by_cases h : MinimalBoardSet.Contains s m
  · rw [if_pos h]
    exact h
  · rw [if_neg h]
    unfold MinimalBoardSet.Contains
    simp

/-- C4 amended: dedup equality is full-struct equality — occupancy and all four
derived scalars; since compaction computes the scalars deterministically from
the board, compacting with a fixed heuristic function is injective in the
occupancy (equal boards iff equal compact states), and the second insertion
attempt of the same compacted board is rejected. -/
theorem c4_compact_identity :
    (∀ m1 m2 : MinimalBoard, m1 = m2 ↔
      (m1.board = m2.board ∧ m1.Heuristic = m2.Heuristic ∧ m1.IsSolved = m2.IsSolved ∧
        m1.Score = m2.Score ∧ m1.Coverage = m2.Coverage)) ∧
    (∀ (heuristicFn : Board → ℚ) (b1 b2 : Board),
      getMinimalBoard b1 heuristicFn = getMinimalBoard b2 heuristicFn ↔ b1 = b2) ∧
    (∀ (st : OrchestratorState) (b : Board) (heuristicFn : Board → ℚ),
      (insertBoard (insertBoard st (getMinimalBoard b heuristicFn)).1
        (getMinimalBoard b heuristicFn)).2 = false) := by
  refine ⟨?_, ?_, ?_⟩
  · intro m1 m2
    cases m1
    cases m2
    simp
  · intro hfn b1 b2
    constructor
    · intro h
      calc b1 = RebuildBoard (getMinimalBoard b1 hfn) := (rebuild_getMinimalBoard b1 hfn).symm
        _ = RebuildBoard (getMinimalBoard b2 hfn) := by rw [h]
        _ = b2 := rebuild_getMinimalBoard b2 hfn
    · rintro rfl
      rfl
  · intro st b hfn
    unfold insertBoard
    by_cases h : MinimalBoardSet.Contains st.seenBoards (getMinimalBoard b hfn) = false
    · simp only [h, if_true, eq_self_iff_true]
      simp [contains_put_self]
    · simp [h]

/-- C5 (code bug): after a single dispatch (`Add(1)`) whose expansion completes
successfully, the worker has run both its deferred `Add(-1)` and the explicit
`Add(-1)` before `return nil`, leaving `outstandingJobs` at -1 — the counter is
decremented twice for one unit of work and goes negative. -/
theorem c5_outstanding_counter_negative :
    outstandingAfter [SearchEvent.dispatch, SearchEvent.workerDone true] = -1 := by
  decide

/-- C6 (code bug): pruning a non-empty frontier whose every element exceeds the
bound walks `tailIndex` down to -1 and the loop condition then reads
`edgeSet[-1]` — an index-out-of-range panic, modelled as `none`. -/
theorem c6_prune_reads_past_front : pruneStep [mbOver] 28 = none := by
  have h2 : pruneLoop [mbOver] 28 = pruneLoop [] 28 := by
    rw [pruneLoop]
    simp [mbOver]
  have h1 : pruneLoop [] 28 = none := by
    rw [pruneLoop]
    simp
  unfold pruneStep
  simp [h2, h1]

/-- C7 counterexample: from the frontier [mbLow, mbHigh] the orchestrator
dispatches the last element after the ascending sort, which is `mbHigh` — an
element of strictly larger heuristic than `mbLow` — so the dispatched board is
not the element with the lowest heuristic value. -/
theorem c7_counterexample_dispatch_not_lowest :
    dispatchedBoard [mbLow, mbHigh] = some mbHigh ∧ mbLow.Heuristic < mbHigh.Heuristic := by
  constructor
  · have hs : List.mergeSort [mbLow, mbHigh]
        (fun a c => decide (a.Heuristic ≤ c.Heuristic)) = [mbLow, mbHigh] :=
      List.mergeSort_of_sorted (by decide)
    unfold dispatchedBoard sortEdgeSet
    rw [hs]
    rfl
  · norm_num [mbLow, mbHigh]

/-- C7 amended: whenever the orchestrator dispatches a board (the last element
after the ascending-by-heuristic sort of the frontier), that board has the
highest — not lowest — heuristic value among the frontier elements. -/
theorem c7_dispatched_has_max_heuristic (edge : List MinimalBoard) (m : MinimalBoard)
    (h : dispatchedBoard edge = some m) : ∀ x ∈ edge, x.Heuristic ≤ m.Heuristic := by
  intro x hx
  unfold dispatchedBoard sortEdgeSet at h
  have htrans : ∀ a b c : MinimalBoard,
      (fun a c : MinimalBoard => decide (a.Heuristic ≤ c.Heuristic)) a b →
      (fun a c : MinimalBoard => decide (a.Heuristic ≤ c.Heuristic)) b c →
      (fun a c : MinimalBoard => decide (a.Heuristic ≤ c.Heuristic)) a c := by
    intro a b c hab hbc
    simp only [decide_eq_true_eq] at hab hbc ⊢
    exact le_trans hab hbc
  have htotal : ∀ a b : MinimalBoard,
      ((fun a c : MinimalBoard => decide (a.Heuristic ≤ c.Heuristic)) a b ||
       (fun a c : MinimalBoard => decide (a.Heuristic ≤ c.Heuristic)) b a) = true := by
    intro a b
    simp only [Bool.or_eq_true, decide_eq_true_eq]
    exact le_total a.Heuristic b.Heuristic
  have hsorted := List.sorted_mergeSort htrans htotal edge
  obtain ⟨ys, hys⟩ := List.getLast?_eq_some_iff.mp h
  rw [hys] at hsorted
  have hx2 : x ∈ ys ++ [m] := by
    rw [← hys, List.mem_mergeSort]
    exact hx
  rcases List.mem_append.mp hx2 with hxy | hxm
  · have := (List.pairwise_append.mp hsorted).2.2 x hxy m (by simp)
    simpa using this
  · rw [List.mem_singleton.mp hxm]

/-- Witness for C7's amended ordering contract on a one-element frontier. -/
theorem c7_dispatched_has_max_heuristic_witness :
    dispatchedBoard [mbLow] = some mbLow ∧ ∀ x ∈ [mbLow], x.Heuristic ≤ mbLow.Heuristic := by
  have h1 : dispatchedBoard [mbLow] = some mbLow := by
    have hs : List.mergeSort [mbLow]
        (fun a c => decide (a.Heuristic ≤ c.Heuristic)) = [mbLow] :=
      List.mergeSort_of_sorted (by decide)
    unfold dispatchedBoard sortEdgeSet
    rw [hs]
    rfl
  exact ⟨h1, c7_dispatched_has_max_heuristic [mbLow] mbLow h1⟩

/-- C8 counterexample: scoring a board that holds an unrecognized piece value
panics (crashing the process through `GetScore`'s `panic`), rather than
surfacing a matchable error through the error return. -/
theorem c8_counterexample_score_panics :
    Score badPieceBoard = GoResult.goPanic ("tried to get score for unknown piece: " ++ "6") := by
  decide

theorem GetScore_closed {piece : Piece} (h0 : piece ≠ NONE) (h5 : piece ≤ 5) :
    GetScore piece = GoResult.ok (pieceValue piece) := by
  unfold NONE at h0
  interval_cases piece <;> first | rfl | exact absurd rfl h0

theorem list_sum_flatMap {α : Type} (l : List α) (g : α → List Int) :
    (l.flatMap g).sum = (l.map (fun a => (g a).sum)).sum := by
  induction l with
  | nil => rfl
  | cons a l ih => simp [List.flatMap_cons, List.sum_append, ih]

theorem scoreAux_ok {b : Board} (hv : ValidBoard b) :
    ∀ (l : List Int) (acc : Int), (∀ p ∈ l, ∃ x y : Fin 8, p = enc x y) →
      scoreAux b l acc =
        GoResult.ok (acc + (l.map (fun p => pieceValue (getCellPiece b p))).sum) := by
  intro l
  induction l with
  | nil =>
    intro acc _
    simp [scoreAux]
  | cons p rest ih =>
    intro acc hmem
    obtain ⟨x, y, rfl⟩ := hmem p (by simp)
    simp only [scoreAux, getCellPiece_enc]
    by_cases h0 : b x y = NONE
    · rw [if_pos h0, ih acc (fun q hq => hmem q (by simp [hq]))]
      have hz : pieceValue (b x y) = 0 := by rw [h0]; rfl
      simp only [List.map_cons, List.sum_cons, getCellPiece_enc, hz, zero_add]
    · rw [if_neg h0, GetScore_closed h0 (hv x y)]
      show scoreAux b rest (acc + pieceValue (b x y)) = _
      rw [ih (acc + pieceValue (b x y)) (fun q hq => hmem q (by simp [hq]))]
      simp only [List.map_cons, List.sum_cons, getCellPiece_enc]
      congr 1
      ring

/-- C8 amended: for every board over the closed piece set, `Score` returns the
sum of the per-piece values (pawn 1, knight 3, bishop 3, rook 5, queen 9); a
board holding an unrecognized piece value instead panics in `GetScore`,
crashing the process rather than returning a matchable error. -/
theorem c8_score_closed_sum (b : Board) (hv : ValidBoard b) :
    Score b = GoResult.ok (∑ x : Fin 8, ∑ y : Fin 8, pieceValue (b x y)) := by
  unfold Score
  rw [scoreAux_ok hv cellOrder 0 (fun p hp => mem_cellOrder.mp hp)]
  congr 1
  rw [zero_add]
  unfold cellOrder
  rw [List.map_flatMap, list_sum_flatMap]
  simp only [List.map_map]
  rw [Fin.sum_univ_def]
  apply congrArg List.sum
  apply List.map_congr_left
  intro x _
  rw [Fin.sum_univ_def]
  apply congrArg List.sum
  apply List.map_congr_left
  intro y _
  simp [Function.comp, getCellPiece_enc]

/-- Witness for C8's amended scoring statement at a single-pawn board. -/
theorem c8_score_closed_sum_witness :
    ValidBoard pawnAtOrigin ∧
      Score pawnAtOrigin =
        GoResult.ok (∑ x : Fin 8, ∑ y : Fin 8, pieceValue (pawnAtOrigin x y)) :=
  ⟨by decide, c8_score_closed_sum pawnAtOrigin (by decide)⟩

/-- Removing a piece only makes cells emptier. -/
theorem isEmpty_mono_removeAt {b : Board} {p0 r : Int}
    (h : isEmpty b r = true) : isEmpty (removeAt b p0) r = true := by
  unfold isEmpty getCellPiece removeAt at *
  split
  · simp
  · exact h

/-- Ray membership only depends on emptiness positively, so it is preserved
when cells become emptier. -/
theorem specRayMem_mono {b b' : Board}
    (hmono : ∀ r : Int, isEmpty b r = true → isEmpty b' r = true)
    {p dx dy q : Int} (h : specRayMem b p dx dy q) : specRayMem b' p dx dy q := by
  obtain ⟨k, h1, h2, h3, h4⟩ := h
  exact ⟨k, h1, h2, h3, fun j hj1 hj2 => hmono _ (h4 j hj1 hj2)⟩

theorem bishopCoverage_mono {b b' : Board}
    (hmono : ∀ r : Int, isEmpty b r = true → isEmpty b' r = true)
    {p : Int} (h0 : pointOnBoard p) : bishopCoverage b p ⊆ bishopCoverage b' p := by
  intro q hq
  rw [mem_bishopCoverage h0 q] at hq ⊢
  rcases hq with h | h | h | h
  · exact Or.inl (specRayMem_mono hmono h)
  · exact Or.inr (Or.inl (specRayMem_mono hmono h))
  · exact Or.inr (Or.inr (Or.inl (specRayMem_mono hmono h)))
  · exact Or.inr (Or.inr (Or.inr (specRayMem_mono hmono h)))

theorem rookCoverage_mono {b b' : Board}
    (hmono : ∀ r : Int, isEmpty b r = true → isEmpty b' r = true)
    {p : Int} (h0 : pointOnBoard p) : rookCoverage b p ⊆ rookCoverage b' p := by
  intro q hq
  rw [mem_rookCoverage h0 q] at hq ⊢
  rcases hq with h | h | h | h
  · exact Or.inl (specRayMem_mono hmono h)
  · exact Or.inr (Or.inl (specRayMem_mono hmono h))
  · exact Or.inr (Or.inr (Or.inl (specRayMem_mono hmono h)))
  · exact Or.inr (Or.inr (Or.inr (specRayMem_mono hmono h)))

/-- Emptying cells never shrinks any piece's coverage: pawn and knight coverage
are purely geometric, and sliding rays only extend. -/
theorem coverageD_mono {b b' : Board}
    (hmono : ∀ r : Int, isEmpty b r = true → isEmpty b' r = true)
    {p : Int} (h0 : pointOnBoard p) (piece : Piece) :
    coverageD b p piece ⊆ coverageD b' p piece := by
  unfold coverageD getCoverage
  by_cases h1 : piece = PAWN
  · simp [h1]
  by_cases h2 : piece = KNIGHT
  · simp [h1, h2]
  by_cases h3 : piece = BISHOP
  · simp only [h1, h2, h3, if_neg, if_pos, if_false, if_true]
    exact bishopCoverage_mono hmono h0
  by_cases h4 : piece = ROOK
  · simp only [h1, h2, h3, h4, if_neg, if_pos, if_false, if_true]
    exact rookCoverage_mono hmono h0
  by_cases h5 : piece = QUEEN
  · simp only [h1, h2, h3, h4, h5, if_neg, if_pos, if_false, if_true]
    unfold queenCoverage
    exact Finset.union_subset_union (bishopCoverage_mono hmono h0) (rookCoverage_mono hmono h0)
  · simp [h1, h2, h3, h4, h5]

/-- A supporter other than the removed piece keeps supporting the same cell
after the removal. -/
theorem supporter_survives {b : Board} {x y : Fin 8} {q p2 : Int}
    (hp2 : p2 ∈ supportedByOf b q) (hne : p2 ≠ enc x y) :
    p2 ∈ supportedByOf (removeAt b (enc x y)) q := by
  unfold supportedByOf at hp2 ⊢
  rw [Finset.mem_filter] at hp2 ⊢
  obtain ⟨hmem, hocc, hcov⟩ := hp2
  obtain ⟨x2, y2, rfl⟩ := mem_allPoints.mp hmem
  have hxy : ¬(x = x2 ∧ y = y2) := by
    rintro ⟨rfl, rfl⟩
    exact hne rfl
  have hcell : getCellPiece (removeAt b (enc x y)) (enc x2 y2) = getCellPiece b (enc x2 y2) := by
    rw [getCellPiece_enc, getCellPiece_enc, removeAt_apply, if_neg hxy]
  refine ⟨hmem, ?_, ?_⟩
  · rw [hcell]
    exact hocc
  · rw [hcell]
    exact coverageD_mono (fun r hr => isEmpty_mono_removeAt hr) (pointOnBoard_enc x2 y2) _ hcov

/-- Every cell a piece supports is in its cell's coverage, and the piece itself
is among the cell's supporters. -/
theorem self_mem_supportedBy {b : Board} {p q : Int} (hp : pointOnBoard p)
    (hocc : getCellPiece b p ≠ NONE) (hq : q ∈ supportsOf b p) :
    p ∈ supportedByOf b q := by
  unfold supportsOf at hq
  rw [if_neg hocc] at hq
  unfold supportedByOf
  rw [Finset.mem_filter]
  exact ⟨mem_allPoints.mpr (pointOnBoard_iff.mp hp), hocc, hq⟩

/-- Removing a removable piece preserves coveredness of every covered cell. -/
theorem supportedBy_nonempty_removeAt {b : Board} {x y : Fin 8}
    (hrem : removable b (enc x y)) {q : Int}
    (hq : 0 < (supportedByOf b q).card) :
    0 < (supportedByOf (removeAt b (enc x y)) q).card := by
  obtain ⟨p2, hp2⟩ := Finset.card_pos.mp hq
  by_cases hne : p2 = enc x y
  · rw [hne] at hp2
    have hqcov : q ∈ supportsOf b (enc x y) := by
      unfold supportedByOf at hp2
      rw [Finset.mem_filter] at hp2
      unfold supportsOf
      rw [if_neg hp2.2.1]
      exact hp2.2.2
    have hcard : (supportedByOf b q).card ≠ 1 := hrem.2 q hqcov
    have h2 : 1 < (supportedByOf b q).card := by
      have hpos := Finset.card_pos.mpr ⟨enc x y, hp2⟩
      omega
    obtain ⟨p3, hp3, hp3ne⟩ := Finset.exists_ne_of_one_lt_card h2 (enc x y)
    exact Finset.card_pos.mpr ⟨p3, supporter_survives hp3 hp3ne⟩
  · exact Finset.card_pos.mpr ⟨p2, supporter_survives hp2 hne⟩

/-- Removing a removable piece never lowers the coverage level. -/
theorem coverageLevel_le_removeAt {b : Board} {x y : Fin 8}
    (hrem : removable b (enc x y)) :
    GetCoverageLevel b ≤ GetCoverageLevel (removeAt b (enc x y)) := by
  unfold GetCoverageLevel
  apply Finset.card_le_card
  intro q hq
  rw [Finset.mem_filter] at hq ⊢
  exact ⟨hq.1, supportedBy_nonempty_removeAt hrem hq.2⟩

theorem filter_removable_nil_of_pieceCount_zero {b : Board} (h : pieceCount b = 0) :
    cellOrder.filter (fun p => removable b p) = [] := by
  rw [List.filter_eq_nil_iff]
  intro p hp hdec
  obtain ⟨x, y, _, hocc⟩ := removable_shape hp (of_decide_eq_true hdec)
  have hmem : (x, y) ∈ (Finset.univ : Finset (Fin 8 × Fin 8)).filter
      (fun c => b c.1 c.2 ≠ NONE) := by
    simp only [Finset.mem_filter, Finset.mem_univ, true_and]
    exact hocc
  have hpos : 0 < pieceCount b := Finset.card_pos.mpr ⟨(x, y), hmem⟩
  omega

theorem reduce_eq_self_of_filter_nil {b : Board}
    (h : cellOrder.filter (fun p => removable b p) = []) : reduce b = [b] := by
  rw [reduce_eq, h]
  simp

/-- Along the whole reduce recursion, coverage level never decreases. -/
theorem reduce_coverage_mono : ∀ (n : Nat) (b : Board), pieceCount b ≤ n →
    ∀ c ∈ reduce b, GetCoverageLevel b ≤ GetCoverageLevel c := by
  intro n
  induction n with
  | zero =>
    intro b hn c hc
    rw [reduce_eq_self_of_filter_nil (filter_removable_nil_of_pieceCount_zero (by omega))] at hc
    rw [List.mem_singleton.mp hc]
  | succ n ih =>
    intro b hn c hc
    rw [reduce_eq] at hc
    split at hc
    · rw [List.mem_singleton.mp hc]
    · obtain ⟨p, hpfil, hpc⟩ := List.mem_flatMap.mp hc
      rw [List.mem_filter] at hpfil
      have hrem := of_decide_eq_true hpfil.2
      obtain ⟨x, y, rfl, hocc⟩ := removable_shape hpfil.1 hrem
      have hlt := pieceCount_removeAt_lt b x y hocc
      calc GetCoverageLevel b ≤ GetCoverageLevel (removeAt b (enc x y)) :=
            coverageLevel_le_removeAt hrem
        _ ≤ GetCoverageLevel c := ih (removeAt b (enc x y)) (by omega) c hpc

/-- C3 amended: for every settled board over the closed piece set, reduce never
decreases the coverage level — every board in the result list of reduce(board)
has a coverage level greater than or equal to the input board's (it can be
strictly greater, because removing a blocker extends other pieces' rays). -/
theorem c3_reduce_coverage_never_decreases (b : Board) (hv : ValidBoard b) :
    ∀ c ∈ reduce b, GetCoverageLevel b ≤ GetCoverageLevel c :=
  reduce_coverage_mono (pieceCount b) b (le_refl _)

/-- C3 counterexample: reducing the rook-and-two-pawns board removes the pawn
at (0,1) — a removable piece that was blocking the rook's file — and the sole
result board has coverage level 12, strictly greater than the input's 10: the
coverage level of a reduce result is not equal to the input's, and reduce can
increase it. -/
theorem c3_counterexample_coverage_increases :
    GetCoverageLevel demoRookPawns = 10 ∧ reduce demoRookPawns = [demoRookPawn] ∧
      GetCoverageLevel demoRookPawn = 12 :=
  ⟨by decide, by decide, by decide⟩

/-- Witness for C3's amended monotonicity at the rook-and-two-pawns board. -/
theorem c3_reduce_coverage_never_decreases_witness :
    ValidBoard demoRookPawns ∧
      ∀ c ∈ reduce demoRookPawns, GetCoverageLevel demoRookPawns ≤ GetCoverageLevel c :=
  ⟨by decide, c3_reduce_coverage_never_decreases demoRookPawns (by decide)⟩

/-- The removability test matches the spec's wording: every cell the piece
supports is supported by at least one other piece. -/
theorem removable_iff_spec (b : Board) {p : Int} (hp : pointOnBoard p) :
    removable b p ↔ (getCellPiece b p ≠ NONE ∧
      ∀ q ∈ supportsOf b p, ∃ p2 ∈ supportedByOf b q, p2 ≠ p) := by
  constructor
  · rintro ⟨hocc, hall⟩
    refine ⟨hocc, fun q hq => ?_⟩
    have hself := self_mem_supportedBy hp hocc hq
    have h2 : 1 < (supportedByOf b q).card := by
      have hpos := Finset.card_pos.mpr ⟨p, hself⟩
      have := hall q hq
      omega
    exact Finset.exists_ne_of_one_lt_card h2 p
  · rintro ⟨hocc, hall⟩
    refine ⟨hocc, fun q hq => ?_⟩
    have hself := self_mem_supportedBy hp hocc hq
    obtain ⟨p2, hp2, hp2ne⟩ := hall q hq
    have h2 : 1 < (supportedByOf b q).card := Finset.one_lt_card.mpr ⟨p2, hp2, p, hself, hp2ne⟩
    omega

/-- C2 amended: the removability criterion is as the spec words it; a board
with no removable piece reduces to itself alone; and reduce branches on every
removable piece found at a level — for each removable piece, all boards
obtained by removing it, resettling and recursing appear in the result — not
only on the first such piece. -/
theorem c2_reduce_branches (b : Board) (hv : ValidBoard b) :
    (∀ p : Int, pointOnBoard p →
      (removable b p ↔ (getCellPiece b p ≠ NONE ∧
        ∀ q ∈ supportsOf b p, ∃ p2 ∈ supportedByOf b q, p2 ≠ p))) ∧
    ((∀ p : Int, ¬ removable b p) → reduce b = [b]) ∧
    (∀ p : Int, pointOnBoard p → removable b p →
      ∀ c ∈ reduce (removeAt b p), c ∈ reduce b) := by
  refine ⟨fun p hp => removable_iff_spec b hp, ?_, ?_⟩
  · intro hno
    apply reduce_eq_self_of_filter_nil
    rw [List.filter_eq_nil_iff]
    intro p hp hdec
    exact hno p (of_decide_eq_true hdec)
  · intro p hp hrem c hc
    rw [reduce_eq b]
    have hpmem : p ∈ cellOrder := mem_cellOrder.mpr (pointOnBoard_iff.mp hp)
    have hfil : p ∈ cellOrder.filter (fun r => removable b r) := by
      rw [List.mem_filter]
      exact ⟨hpmem, decide_eq_true hrem⟩
    have hflat : c ∈ (cellOrder.filter (fun r => removable b r)).flatMap
        (fun r => reduce (removeAt b r)) :=
      List.mem_flatMap.mpr ⟨p, hfil, hc⟩
    have hne : ¬ ((cellOrder.filter (fun r => removable b r)).flatMap
        (fun r => reduce (removeAt b r))).isEmpty = true := by
      intro h
      rw [List.isEmpty_iff] at h
      rw [h] at hflat
      simp at hflat
    rw [if_neg hne]
    exact hflat

/-- C2 counterexample: the three-pawn board has two removable pieces at the
same level — the pawns at (0,0) and (0,2) — and reduce returns one branch for
each of them, two results in total; branching only on the first discovered
removable piece would return the single board `demoPawnsBC`. -/
theorem c2_counterexample_branches_on_every_removable :
    removable demoTriplePawns (enc 0 0) ∧ removable demoTriplePawns (enc 0 2) ∧
      reduce demoTriplePawns = [demoPawnsBC, demoPawnsAC] :=
  ⟨by decide, by decide, by decide⟩

/-- Witness for C2's amended branching description at the three-pawn board. -/
theorem c2_reduce_branches_witness :
    ValidBoard demoTriplePawns ∧
    ((∀ p : Int, pointOnBoard p →
      (removable demoTriplePawns p ↔ (getCellPiece demoTriplePawns p ≠ NONE ∧
        ∀ q ∈ supportsOf demoTriplePawns p,
          ∃ p2 ∈ supportedByOf demoTriplePawns q, p2 ≠ p))) ∧
    ((∀ p : Int, ¬ removable demoTriplePawns p) → reduce demoTriplePawns = [demoTriplePawns]) ∧
    (∀ p : Int, pointOnBoard p → removable demoTriplePawns p →
      ∀ c ∈ reduce (removeAt demoTriplePawns p), c ∈ reduce demoTriplePawns)) :=
  ⟨by decide, c2_reduce_branches demoTriplePawns (by decide)⟩

/-- Along the whole reduce recursion, the occupancy only ever loses pieces. -/
theorem reduce_restriction : ∀ (n : Nat) (b : Board), pieceCount b ≤ n →
    ∀ c ∈ reduce b, ∀ x y : Fin 8, c x y = b x y ∨ c x y = NONE := by
  intro n
  induction n with
  | zero =>
    intro b hn c hc
    rw [reduce_eq_self_of_filter_nil (filter_removable_nil_of_pieceCount_zero (by omega))] at hc
    rw [List.mem_singleton.mp hc]
    exact fun x y => Or.inl rfl
  | succ n ih =>
    intro b hn c hc
    rw [reduce_eq] at hc
    split at hc
    · rw [List.mem_singleton.mp hc]
      exact fun x y => Or.inl rfl
    · obtain ⟨p, hpfil, hpc⟩ := List.mem_flatMap.mp hc
      rw [List.mem_filter] at hpfil
      have hrem := of_decide_eq_true hpfil.2
      obtain ⟨x0, y0, rfl, hocc⟩ := removable_shape hpfil.1 hrem
      have hlt := pieceCount_removeAt_lt b x0 y0 hocc
      intro x y
      rcases ih (removeAt b (enc x0 y0)) (by omega) c hpc x y with h | h
      · rw [h, removeAt_apply]
        by_cases hxy : x0 = x ∧ y0 = y
        · rw [if_pos hxy]
          exact Or.inr rfl
        · rw [if_neg hxy]
          exact Or.inl rfl
      · exact Or.inr h

/-- C10: every board reduce returns is a pointwise restriction of the input's
occupancy — each cell holds the piece it held in the input or is empty; reduce
never adds, changes or moves a piece.  (Removals happen on copies: the model is
pure, as the Go code mutates only boards created by `copy`.) -/
theorem c10_reduce_occupancy_restriction (b : Board) (hv : ValidBoard b) :
    ∀ c ∈ reduce b, ∀ x y : Fin 8, c x y = b x y ∨ c x y = NONE :=
  reduce_restriction (pieceCount b) b (le_refl _)

/-- Witness for C10 at the two-pawn board. -/
theorem c10_reduce_occupancy_restriction_witness :
    ValidBoard demoPawnsBC ∧
      ∀ c ∈ reduce demoPawnsBC, ∀ x y : Fin 8, c x y = demoPawnsBC x y ∨ c x y = NONE :=
  ⟨by decide, c10_reduce_occupancy_restriction demoPawnsBC (by decide)⟩

end Chess
